import Mathlib

/-
Verification of the canvas3d core: vector and matrix algebra, the Shape
model, the Path3D builder, the Drawing tree with its monoid, and the render
interpreter that accumulates transforms and emits Renderer commands.

Numbers are modelled by the rationals. The source works with JS floats;
no claim below depends on rounding, so the exact field is the faithful
choice. A point is finite in the source when its first three coordinates
are all finite numbers; over the rationals every present coordinate is
finite, so finiteness reduces to having at least three coordinates
(a missing coordinate reads as undefined in JS and fails isFinite).
-/

namespace C3D

/-- Vec mirrors src/Vec.ts: an ordered tuple of numbers. The source uses a
readonly non-empty array; emptiness never arises in any claim, so a plain
list carries the model and non-emptiness is assumed where the source
requires it. -/
abbrev Vec := List ℚ

/-- Mat mirrors src/Canvas.ts (Mat module): an ordered sequence of
row-vectors. -/
abbrev Mat := List Vec

/-- Path3D mirrors src/Canvas.ts (Path3D module): an ordered sequence of
subpaths, each an ordered sequence of points. -/
abbrev Path3D := List (List Vec)

/-- at from src/Vec.ts: index into a vector. Out-of-range access yields
undefined in JS and is a precondition violation per the specification; the
embedding totalizes it with 0, and every claim exercises it in range only.
The name at is a reserved word in Lean, hence atIdx. -/
def atIdx (i : ℕ) (v : Vec) : ℚ := v.getD i 0

/-- dot from src/Vec.ts: zipWith multiply, then reduce with addition from 0.
The zip truncates to the shorter operand, exactly as fp-ts zipWith does. -/
def dot (fb : Vec) (fa : Vec) : ℚ := (List.zipWith (fun a b => a * b) fa fb).sum

/-- row from src/Canvas.ts: the vector of n-th components across all rows. -/
def row (n : ℕ) (as_ : Mat) : Vec := as_.map (atIdx n)

/-- transpose from src/Canvas.ts: for each index of the first row, take that
column across all rows. -/
def transpose (fa : Mat) : Mat := (List.range (fa.headD []).length).map (fun i => row i fa)

/-- concat of semigroupMat from src/Canvas.ts: the matrix product, computed
by mapping dot over the transpose of the right operand. -/
def concat (x y : Mat) : Mat := x.map (fun ar => (transpose y).map (fun c => dot c ar))

/-- mul from src/Canvas.ts: mul(fb)(fa) = concat(fa, fb); the argument
passed second is the left operand of the product. -/
def mul (fb : Mat) (fa : Mat) : Mat := concat fa fb

/-- identity from src/Canvas.ts: the 4 by 4 identity matrix. -/
def identity : Mat := [[1,0,0,0],[0,1,0,0],[0,0,1,0],[0,0,0,1]]

/-- translate from src/Canvas.ts. -/
def translate (v : Vec) : Mat :=
  [[1,0,0,0],[0,1,0,0],[0,0,1,0],[atIdx 0 v, atIdx 1 v, atIdx 2 v, 1]]

/-- scale from src/Canvas.ts. -/
def scale (v : Vec) : Mat :=
  [[atIdx 0 v,0,0,0],[0,atIdx 1 v,0,0],[0,0,atIdx 2 v,0],[0,0,0,1]]

/-
The rotation constructors in src/Canvas.ts first convert the degree angle
to radians and apply Math.sin and Math.cos. Real trigonometric functions
are not computable, so the embedding abstracts the two degree-trig
evaluators as function parameters cosd and sind (cosd a stands for
cos(a * pi / 180), sind a for sin(a * pi / 180)); the matrix layout, which
is what the claims are about, is translated verbatim.
-/

/-- rotateX from src/Canvas.ts, with the degree-trig evaluators abstracted. -/
def rotateX (cosd sind : ℚ → ℚ) (angle : ℚ) : Mat :=
  [[1, 0, 0, 0],
   [0, cosd angle, sind angle, 0],
   [0, -sind angle, cosd angle, 0],
   [0, 0, 0, 1]]

/-- rotateY from src/Canvas.ts, with the degree-trig evaluators abstracted. -/
def rotateY (cosd sind : ℚ → ℚ) (angle : ℚ) : Mat :=
  [[cosd angle, 0, -sind angle, 0],
   [0, 1, 0, 0],
   [sind angle, 0, cosd angle, 0],
   [0, 0, 0, 1]]

/-- rotateZ from src/Canvas.ts, with the degree-trig evaluators abstracted.
Note the third row of the source literal is all zeros. -/
def rotateZ (cosd sind : ℚ → ℚ) (angle : ℚ) : Mat :=
  [[cosd angle, sind angle, 0, 0],
   [-sind angle, cosd angle, 0, 0],
   [0, 0, 0, 0],
   [0, 0, 0, 1]]

/-- Standard homogeneous rotation about the X axis, written from the words
of the specification for comparison with the source constructor. -/
def stdRotX (cosd sind : ℚ → ℚ) (angle : ℚ) : Mat :=
  [[1, 0, 0, 0],
   [0, cosd angle, sind angle, 0],
   [0, -sind angle, cosd angle, 0],
   [0, 0, 0, 1]]

/-- Standard homogeneous rotation about the Y axis, written from the words
of the specification for comparison with the source constructor. -/
def stdRotY (cosd sind : ℚ → ℚ) (angle : ℚ) : Mat :=
  [[cosd angle, 0, -sind angle, 0],
   [0, 1, 0, 0],
   [sind angle, 0, cosd angle, 0],
   [0, 0, 0, 1]]

/-- Standard homogeneous rotation about the Z axis, written from the words
of the specification for comparison with the source constructor: its third
row is the z unit row. -/
def stdRotZ (cosd sind : ℚ → ℚ) (angle : ℚ) : Mat :=
  [[cosd angle, sind angle, 0, 0],
   [-sind angle, cosd angle, 0, 0],
   [0, 0, 1, 0],
   [0, 0, 0, 1]]

-- -------------------------------------------------------------------------
-- Path3D builder (src/Canvas.ts, Path3D module)
-- -------------------------------------------------------------------------

/-- isPointFinite from the Path3D module: the source tests isFinite on the
first three coordinates. Over the rationals every present coordinate is
finite, and an absent coordinate (undefined in JS) is not, so the test
reduces to having at least three coordinates. -/
def isPointFinite (point : Vec) : Bool := decide (3 ≤ point.length)

/-- moveTo from the Path3D module: append a fresh one-point subpath when
the point is finite, otherwise return the path unchanged. -/
def moveTo (point : Vec) (path : Path3D) : Path3D :=
  if isPointFinite point then path ++ [[point]] else path

/-- modifyLast applies a function to the last subpath, as
ReadonlyNonEmptyArray.modifyLast does on a non-empty path. -/
def modifyLast (f : List Vec → List Vec) : Path3D → Path3D
  | [] => []
  | [a] => [f a]
  | a :: b :: t => a :: modifyLast f (b :: t)

/-- updateLast replaces the last subpath, as
ReadonlyNonEmptyArray.updateLast does. -/
def updateLast (x : List Vec) : Path3D → Path3D := modifyLast (fun _ => x)

/-- lineTo from the Path3D module: append the point to the last subpath of
a non-empty path, fall back to moveTo on an empty path, and drop non-finite
points. -/
def lineTo (point : Vec) (path : Path3D) : Path3D :=
  if isPointFinite point then
    match path with
    | [] => moveTo point []
    | a :: t => modifyLast (fun cur => cur ++ [point]) (a :: t)
  else path

/-- sameFirst3 is the equality test of closePath in the source: the first
three indexed components compared with strict equality. Index access on a
list is Option-valued, matching undefined for an absent component. -/
def sameFirst3 (a b : Vec) : Prop :=
  a.get? 0 = b.get? 0 ∧ a.get? 1 = b.get? 1 ∧ a.get? 2 = b.get? 2

instance (a b : Vec) : Decidable (sameFirst3 a b) := by
  unfold sameFirst3; infer_instance

/-- closePath from the Path3D module: no-op on an empty path, on a last
subpath of at most one point, or when the two ends of the last subpath
agree on the first three components; otherwise close the last subpath with
a copy of its first point and append a new one-point subpath holding that
point. -/
def closePath (path : Path3D) : Path3D :=
  match path.getLast? with
  | none => path
  | some cur =>
    if cur.length ≤ 1 then path
    else
      if sameFirst3 (cur.getLastD []) (cur.headD []) then path
      else updateLast (cur ++ [cur.headD []]) path ++ [[cur.headD []]]

/-- closePathSpec is written from the words of the claim on closePath:
unchanged when the path is empty, when the last subpath has at most one
point, or when the final point of the last subpath equals its first point
component-wise; otherwise the last subpath is extended by a copy of its own
first point and one new trailing subpath holds only that first point. -/
def closePathSpec (path : Path3D) : Path3D :=
  match path.getLast? with
  | none => path
  | some cur =>
    if cur.length ≤ 1 then path
    else
      if cur.getLastD [] = cur.headD [] then path
      else updateLast (cur ++ [cur.headD []]) path ++ [[cur.headD []]]

-- -------------------------------------------------------------------------
-- Shape (src/Shape.ts)
-- -------------------------------------------------------------------------

/-- Shape from src/Shape.ts: a Composite of children or a Path with a
closed flag and an ordered point sequence. -/
inductive Shape where
  | composite (shapes : List Shape) : Shape
  | path (closed : Bool) (points : List Vec) : Shape
deriving Repr

/-- PathV is the payload of the Path variant on its own, the value built by
the path and closed constructors of src/Shape.ts. -/
structure PathV where
  closed : Bool
  points : List Vec
deriving Repr, DecidableEq

/-- empty of monoidPath from src/Shape.ts: the field-wise monoid unit, with
MonoidAny giving false for closed and the list monoid giving the empty
point sequence. -/
def monoidPathEmpty : PathV := { closed := false, points := [] }

/-- concat of monoidPath from src/Shape.ts: field-wise combination,
MonoidAny (boolean or) on closed, list append on points. -/
def monoidPathConcat (x y : PathV) : PathV :=
  { closed := x.closed || y.closed, points := x.points ++ y.points }

/-- closed from src/Shape.ts: fold the point sequence, starting from the
monoidPath unit, appending each point and setting closed to true at every
step. The source is generic over any Foldable container; its reduce is the
left fold, modelled here on lists. -/
def closedF (fa : List Vec) : PathV :=
  fa.foldl (fun b a => { closed := true, points := b.points ++ [a] }) monoidPathEmpty

/-- path from src/Shape.ts: fold the point sequence, starting from the
monoidPath unit, appending each point and setting closed to false at every
step. -/
def pathF (fa : List Vec) : PathV :=
  fa.foldl (fun b a => { closed := false, points := b.points ++ [a] }) monoidPathEmpty

-- -------------------------------------------------------------------------
-- Color capability
-- -------------------------------------------------------------------------

/-- Modelled from the spec: the Color module is not among the source files;
the specification treats Color as an opaque capability consumed only
through toCss, which translates a Color value into a Renderer-acceptable
style string. The model carries that string. -/
structure Color where
  css : String
deriving DecidableEq

/-- Modelled from the spec: toCss of the Color capability. -/
def toCss (c : Color) : String := c.css

-- -------------------------------------------------------------------------
-- Drawing tree (unnamed Drawing module, src/unnamed/part_000)
-- -------------------------------------------------------------------------

/-- FillStyle from the Drawing module: an optional fill color. -/
structure FillStyle where
  color : Option Color
deriving DecidableEq

/-- OutlineStyle from the Drawing module: an optional stroke color and an
optional line width. -/
structure OutlineStyle where
  color : Option Color
  lineWidth : Option ℚ
deriving DecidableEq

/-- Drawing from the Drawing module. The source stores Angle values
({Degrees | Radians}, normalized to degrees by the pure accessor angle) in
the Rotate node; the radians case divides by the float constant pi and no
claim concerns that conversion, so the node carries the normalized degree
value directly. -/
inductive Drawing where
  | outline (shape : Shape) (style : OutlineStyle) : Drawing
  | fill (shape : Shape) (style : FillStyle) : Drawing
  | many (drawings : List Drawing) : Drawing
  | translate (translateX translateY translateZ : ℚ) (drawing : Drawing) : Drawing
  | rotate (rotateX rotateY rotateZ : ℚ) (drawing : Drawing) : Drawing
  | scale (scaleX scaleY scaleZ : ℚ) (drawing : Drawing) : Drawing

/-- isMany tests the Many tag. -/
def isMany : Drawing → Bool
  | .many _ => true
  | _ => false

/-- concat of monoidDrawing from the Drawing module: merge children when
both operands are Many, append or prepend the lone non-Many operand when
exactly one is Many, and wrap both as a two-element Many otherwise. -/
def drawingConcat (x y : Drawing) : Drawing :=
  match x, y with
  | .many xs, .many ys => .many (xs ++ ys)
  | .many xs, _ => .many (xs ++ [y])
  | _, .many ys => .many ([x] ++ ys)
  | _, _ => .many [x, y]

/-- empty of monoidDrawing from the Drawing module: Many of no children. -/
def drawingEmpty : Drawing := .many []

-- -------------------------------------------------------------------------
-- renderShape (Drawing module)
-- -------------------------------------------------------------------------

/-- renderPath is the Path branch of renderShape from the Drawing module:
an empty point sequence yields the empty path; otherwise moveTo the first
point on the empty path, lineTo each remaining point in order, and when the
shape is closed apply closePath and drop the resulting trailing subpath
(the slice without its last element). -/
def renderPath (closed : Bool) (points : List Vec) : Path3D :=
  match points with
  | [] => []
  | head :: tail =>
    let p := tail.foldl (fun a pt => lineTo pt a) (moveTo head [])
    if closed then (closePath p).dropLast else p

mutual

/-- renderShape from the Drawing module: a Composite folds plain list
concatenation of the rendered children over the child sequence from the
empty path (written here as the equivalent right fold); a Path renders as
renderPath. -/
def renderShape : Shape → Path3D
  | .composite shapes => renderShapes shapes
  | .path closed points => renderPath closed points

/-- renderShapes concatenates the rendered children in order. -/
def renderShapes : List Shape → Path3D
  | [] => []
  | s :: rest => renderShape s ++ renderShapes rest

end

-- -------------------------------------------------------------------------
-- Render interpreter (Drawing module)
-- -------------------------------------------------------------------------

/-- Cmd is one Renderer command, the observable effect of the interpreter.
The canvas moveTo and lineTo emit the first two components of the given
point. -/
inductive Cmd where
  | save : Cmd
  | restore : Cmd
  | beginPath : Cmd
  | setFillStyle (css : String) : Cmd
  | setStrokeStyle (css : String) : Cmd
  | setLineWidth (w : ℚ) : Cmd
  | moveTo (x y : ℚ) : Cmd
  | lineTo (x y : ℚ) : Cmd
  | fill : Cmd
  | stroke : Cmd
deriving DecidableEq, Repr

/-- styleCmds is applyStyle from the Drawing module: emit nothing for a
missing optional style, otherwise the commands of the given action. -/
def styleCmds {α : Type} (fa : Option α) (f : α → List Cmd) : List Cmd :=
  match fa with
  | none => []
  | some a => f a

/-- VT from the Drawing module: the hardcoded parallel projection matrix. -/
def VT : Mat := [[1,0,0,0],[0,1,0,0],[0,0,0,0],[0,0,0,1]]

/-- renderSubPath from the Drawing module: nothing for an empty subpath,
otherwise moveTo the first point and lineTo each remaining point, emitting
the first two components of each. -/
def renderSubPath : List Vec → List Cmd
  | [] => []
  | head :: tail =>
    Cmd.moveTo (atIdx 0 head) (atIdx 1 head)
      :: tail.map (fun p => Cmd.lineTo (atIdx 0 p) (atIdx 1 p))

/-- toCoords from the Drawing module: render the shape to a Path3D, keep
the non-empty subpaths, lift each point to homogeneous coordinates by
appending 1, then multiply each subpath, viewed as a matrix of row-vectors,
by the accumulated transform and then by the projection matrix VT. -/
def toCoords (shape : Shape) (transform : Mat) : List Mat :=
  ((((renderShape shape).filterMap
      (fun sp => match sp with | [] => none | a :: t => some (a :: t))).map
      (fun sp => sp.map (fun p => p ++ [1]))).map
      (mul transform)).map
      (mul VT)

mutual

/-- go is the inner traversal of render from the Drawing module, with the
emitted Renderer commands as its value. Many renders every child in order
under the same transform; Scale and Translate multiply the accumulated
transform on the right; Rotate passes
concat(mul(rotateX ax)(rotateY ay), mul(rotateZ az)(t)); the Fill and
Outline leaves emit save, the optional styles, beginPath, the subpath
commands of toCoords, fill or stroke, and restore. -/
def go (cosd sind : ℚ → ℚ) (t : Mat) : Drawing → List Cmd
  | .many ds => goList cosd sind t ds
  | .scale sx sy sz d => go cosd sind (mul (scale [sx, sy, sz]) t) d
  | .rotate ax ay az d =>
    go cosd sind
      (concat (mul (rotateX cosd sind ax) (rotateY cosd sind ay))
              (mul (rotateZ cosd sind az) t)) d
  | .translate dx dy dz d => go cosd sind (mul (translate [dx, dy, dz]) t) d
  | .outline shape style =>
    [Cmd.save]
      ++ styleCmds style.color (fun c => [Cmd.setStrokeStyle (toCss c)])
      ++ styleCmds style.lineWidth (fun w => [Cmd.setLineWidth w])
      ++ [Cmd.beginPath]
      ++ ((toCoords shape t).map renderSubPath).flatten
      ++ [Cmd.stroke]
      ++ [Cmd.restore]
  | .fill shape style =>
    [Cmd.save]
      ++ styleCmds style.color (fun c => [Cmd.setFillStyle (toCss c)])
      ++ [Cmd.beginPath]
      ++ ((toCoords shape t).map renderSubPath).flatten
      ++ [Cmd.fill]
      ++ [Cmd.restore]

/-- goList renders each child in order with the same transform and
concatenates the command sequences. -/
def goList (cosd sind : ℚ → ℚ) (t : Mat) : List Drawing → List Cmd
  | [] => []
  | d :: rest => go cosd sind t d ++ goList cosd sind t rest

end

/-- render from the Drawing module: run the traversal from the identity
transform. -/
def render (cosd sind : ℚ → ℚ) (drawing : Drawing) : List Cmd :=
  go cosd sind identity drawing

-- -------------------------------------------------------------------------
-- Matrix shape predicates
-- -------------------------------------------------------------------------

/-- Rect m r c states that m has r rows, each of length c; this is the
rectangular invariant of the Matrix data model. -/
def Rect (m : Mat) (r c : ℕ) : Prop := m.length = r ∧ ∀ v ∈ m, v.length = c

instance (m : Mat) (r c : ℕ) : Decidable (Rect m r c) := by
  unfold Rect; infer_instance

/-- entry m i j is the j-th component of the i-th row, with 0 outside. -/
def entry (m : Mat) (i j : ℕ) : ℚ := (m.getD i []).getD j 0

-- -------------------------------------------------------------------------
-- List access lemmas
-- -------------------------------------------------------------------------

theorem getD_map {α β : Type} (f : α → β) (d : β) (e : α) :
    ∀ (l : List α) (k : ℕ), k < l.length → (l.map f).getD k d = f (l.getD k e)
  | [], k, h => absurd h (by simp)
  | _ :: _, 0, _ => rfl
  | _ :: t, k + 1, h => getD_map f d e t k (by simpa using h)

theorem getD_mem {α : Type} (d : α) :
    ∀ (l : List α) (k : ℕ), k < l.length → l.getD k d ∈ l
  | _ :: _, 0, _ => List.mem_cons_self _ _
  | _ :: t, k + 1, h => List.mem_cons_of_mem _ (getD_mem d t k (by simpa using h))

theorem range_getD (n k : ℕ) (h : k < n) : (List.range n).getD k 0 = k := by
  rw [List.getD_eq_getElem?_getD, List.getElem?_range h]
  rfl

theorem list_ext_getD {α : Type} (d : α) :
    ∀ (u v : List α), u.length = v.length →
      (∀ j, j < u.length → u.getD j d = v.getD j d) → u = v
  | [], [], _, _ => rfl
  | [], _ :: _, h, _ => absurd h (by simp)
  | _ :: _, [], h, _ => absurd h (by simp)
  | _ :: xs, _ :: ys, h, he => by
    have h0 := he 0 (by simp)
    simp only [List.getD_cons_zero] at h0
    have ht : xs = ys :=
      list_ext_getD d xs ys (by simpa using h) (fun j hj => by
        have := he (j + 1) (by simpa using Nat.succ_lt_succ hj)
        simpa using this)
    rw [h0, ht]

-- -------------------------------------------------------------------------
-- dot as a finite sum
-- -------------------------------------------------------------------------

theorem dot_as_sum :
    ∀ (a b : Vec), dot b a =
      ∑ k ∈ Finset.range (min a.length b.length), a.getD k 0 * b.getD k 0
  | [], b => by simp [dot]
  | _ :: _, [] => by simp [dot]
  | x :: xs, y :: ys => by
    have ih := dot_as_sum xs ys
    simp only [dot, List.zipWith_cons_cons, List.sum_cons] at *
    rw [List.length_cons, List.length_cons, Nat.succ_min_succ,
      Finset.sum_range_succ']
    simp only [List.getD_cons_succ, List.getD_cons_zero]
    rw [← ih]
    ring

-- -------------------------------------------------------------------------
-- transpose and concat under the rectangular invariant
-- -------------------------------------------------------------------------

theorem transpose_length {m : Mat} {r c : ℕ} (h : Rect m r c) (hr : 1 ≤ r) :
    (transpose m).length = c := by
  obtain ⟨hl, hrow⟩ := h
  cases m with
  | nil => simp at hl; omega
  | cons v t =>
    have hv : v.length = c := hrow v (List.mem_cons_self _ _)
    simp [transpose, hv]

theorem transpose_getD {m : Mat} {r c : ℕ} (h : Rect m r c) (hr : 1 ≤ r)
    (j : ℕ) (hj : j < c) : (transpose m).getD j [] = row j m := by
  obtain ⟨hl, hrow⟩ := h
  cases m with
  | nil => simp at hl; omega
  | cons v t =>
    have hv : v.length = c := hrow v (List.mem_cons_self _ _)
    have hjlen : j < (List.range (((v :: t) : Mat).headD []).length).length := by
      simpa [hv] using hj
    rw [transpose, getD_map (fun i => row i (v :: t)) [] 0 _ j hjlen]
    rw [range_getD _ j (by simpa [hv] using hj)]

theorem row_length (n : ℕ) (m : Mat) : (row n m).length = m.length := by
  simp [row]

theorem row_getD {m : Mat} {r c : ℕ} (h : Rect m r c) (n k : ℕ) (hk : k < r) :
    (row n m).getD k 0 = entry m k n := by
  obtain ⟨hl, _⟩ := h
  rw [row, getD_map (atIdx n) 0 [] m k (by omega)]
  rfl

theorem concat_length (x y : Mat) : (concat x y).length = x.length := by
  simp [concat]

theorem Rect_concat {x y : Mat} {m n p : ℕ}
    (hx : Rect x m n) (hy : Rect y n p) (hn : 1 ≤ n) :
    Rect (concat x y) m p := by
  constructor
  · rw [concat_length]; exact hx.1
  · intro v hv
    simp only [concat, List.mem_map] at hv
    obtain ⟨ar, _, rfl⟩ := hv
    rw [List.length_map, transpose_length hy hn]

theorem entry_concat {x y : Mat} {m n p : ℕ}
    (hx : Rect x m n) (hy : Rect y n p) (hn : 1 ≤ n)
    {i j : ℕ} (hi : i < m) (hj : j < p) :
    entry (concat x y) i j = ∑ k ∈ Finset.range n, entry x i k * entry y k j := by
  have hxlen : i < x.length := by rw [hx.1]; exact hi
  have hrowi : (x.getD i []).length = n := hx.2 _ (getD_mem [] x i hxlen)
  have htlen : j < (transpose y).length := by rw [transpose_length hy hn]; exact hj
  unfold entry
  rw [concat, getD_map _ [] [] x i hxlen,
    getD_map (fun c => dot c (x.getD i [])) 0 [] _ j htlen,
    transpose_getD hy hn j hj, dot_as_sum]
  have hrlen : (row j y).length = n := by rw [row_length, hy.1]
  rw [hrowi, hrlen, Nat.min_self]
  refine Finset.sum_congr rfl (fun k hk => ?_)
  have hkn : k < n := Finset.mem_range.mp hk
  rw [row_getD hy j k hkn]
  rfl

theorem mat_ext {a b : Mat} {r c : ℕ} (ha : Rect a r c) (hb : Rect b r c)
    (h : ∀ i, i < r → ∀ j, j < c → entry a i j = entry b i j) : a = b := by
  apply list_ext_getD ([] : List ℚ)
  · rw [ha.1, hb.1]
  · intro i hi
    have hir : i < r := by rwa [ha.1] at hi
    apply list_ext_getD (0 : ℚ)
    · rw [ha.2 _ (getD_mem [] a i hi), hb.2 _ (getD_mem [] b i (by rw [hb.1]; omega))]
    · intro j hj
      have hjc : j < c := by
        rwa [ha.2 _ (getD_mem [] a i hi)] at hj
      exact h i hir j hjc

theorem concat_assoc_rect {A B C : Mat} {m n p q : ℕ}
    (hA : Rect A m n) (hB : Rect B n p) (hC : Rect C p q)
    (hn : 1 ≤ n) (hp : 1 ≤ p) :
    concat (concat A B) C = concat A (concat B C) := by
  have hAB : Rect (concat A B) m p := Rect_concat hA hB hn
  have hBC : Rect (concat B C) n q := Rect_concat hB hC hp
  apply mat_ext (Rect_concat hAB hC hp) (Rect_concat hA hBC hn)
  intro i hi j hj
  rw [entry_concat hAB hC hp hi hj, entry_concat hA hBC hn hi hj]
  calc
    ∑ k ∈ Finset.range p, entry (concat A B) i k * entry C k j
      = ∑ k ∈ Finset.range p, (∑ l ∈ Finset.range n,
          entry A i l * entry B l k) * entry C k j := by
        refine Finset.sum_congr rfl (fun k hk => ?_)
        rw [entry_concat hA hB hn hi (Finset.mem_range.mp hk)]
    _ = ∑ k ∈ Finset.range p, ∑ l ∈ Finset.range n,
          entry A i l * entry B l k * entry C k j := by
        refine Finset.sum_congr rfl (fun k _ => ?_)
        rw [Finset.sum_mul]
    _ = ∑ l ∈ Finset.range n, ∑ k ∈ Finset.range p,
          entry A i l * entry B l k * entry C k j := Finset.sum_comm
    _ = ∑ l ∈ Finset.range n, entry A i l * ∑ k ∈ Finset.range p,
          entry B l k * entry C k j := by
        refine Finset.sum_congr rfl (fun l _ => ?_)
        rw [Finset.mul_sum]
        refine Finset.sum_congr rfl (fun k _ => ?_)
        ring
    _ = ∑ l ∈ Finset.range n, entry A i l * entry (concat B C) l j := by
        refine Finset.sum_congr rfl (fun l hl => ?_)
        rw [entry_concat hB hC hp (Finset.mem_range.mp hl) hj]

theorem Rect_identity : Rect identity 4 4 := by decide

theorem concat_identity_left {A : Mat} (hA : Rect A 4 4) :
    concat identity A = A := by
  apply mat_ext (Rect_concat Rect_identity hA (by omega)) hA
  intro i hi j hj
  rw [entry_concat Rect_identity hA (by omega) hi hj]
  interval_cases i <;>
    simp [Finset.sum_range_succ, entry, identity]

theorem concat_identity_right {A : Mat} (hA : Rect A 4 4) :
    concat A identity = A := by
  apply mat_ext (Rect_concat hA Rect_identity (by omega)) hA
  intro i hi j hj
  rw [entry_concat hA Rect_identity (by omega) hi hj]
  interval_cases j <;>
    simp [Finset.sum_range_succ, entry, identity]

-- -------------------------------------------------------------------------
-- Claim C8
-- -------------------------------------------------------------------------

/-- C8: matrix concat computes the matrix product via the transpose of the
right operand, with result entry (i, j) the dot of row i of the left
operand with column j of the right; it is associative for all conformable
rectangular triples, and the 4 by 4 identity matrix is its two-sided unit
on 4 by 4 matrices. -/
theorem c8_matrix_monoid :
    (∀ X Y : Mat, concat X Y = X.map (fun ar => (transpose Y).map (fun c => dot c ar)))
    ∧ (∀ (X Y : Mat) (m n p : ℕ), Rect X m n → Rect Y n p → 1 ≤ n →
        ∀ i j, i < m → j < p →
          entry (concat X Y) i j = ∑ k ∈ Finset.range n, entry X i k * entry Y k j)
    ∧ (∀ (A B C : Mat) (m n p q : ℕ), Rect A m n → Rect B n p → Rect C p q →
        1 ≤ n → 1 ≤ p → concat (concat A B) C = concat A (concat B C))
    ∧ (∀ A : Mat, Rect A 4 4 → concat identity A = A ∧ concat A identity = A) := by
  refine ⟨fun X Y => rfl, ?_, ?_, ?_⟩
  · intro X Y m n p hX hY hn i j hi hj
    exact entry_concat hX hY hn hi hj
  · intro A B C m n p q hA hB hC hn hp
    exact concat_assoc_rect hA hB hC hn hp
  · intro A hA
    exact ⟨concat_identity_left hA, concat_identity_right hA⟩

/-- Witness for C8 at concrete conformable matrices: associativity on a
2 by 2 times 2 by 1 times 1 by 3 triple, and the identity unit on a
concrete 4 by 4 matrix. -/
theorem c8_matrix_monoid_witness :
    concat (concat [[1,2],[3,4]] [[5],[6]]) [[7,8,9]]
      = concat [[1,2],[3,4]] (concat [[5],[6]] [[7,8,9]])
    ∧ concat identity [[1,2,3,4],[5,6,7,8],[9,10,11,12],[13,14,15,16]]
      = [[1,2,3,4],[5,6,7,8],[9,10,11,12],[13,14,15,16]] :=
  ⟨c8_matrix_monoid.2.2.1 [[1,2],[3,4]] [[5],[6]] [[7,8,9]] 2 2 1 3
      (by decide) (by decide) (by decide) (by decide) (by decide),
   (c8_matrix_monoid.2.2.2 [[1,2,3,4],[5,6,7,8],[9,10,11,12],[13,14,15,16]]
      (by decide)).1⟩

-- -------------------------------------------------------------------------
-- Claim C5
-- -------------------------------------------------------------------------

/-- C5 counterexample: dot does not fail fast on a length mismatch; it
silently truncates to the shorter operand. On the mismatched pair
(a, b) = ([1,2,3], [1,1]) it returns 3, the same value as on the truncated
pair ([1,2], [1,1]), instead of aborting with an error. -/
theorem c5_counterexample :
    dot [1, 1] [1, 2, 3] = 3 ∧ dot [1, 1] [1, 2, 3] = dot [1, 1] [1, 2] := by
  norm_num [dot]

/-- C5 amended: dot(b)(a) always returns the sum over the first
min(len a, len b) indices of the componentwise products; for equal lengths
this is the full dot product, and mismatched lengths are silently truncated
to the shorter vector, with no error raised. -/
theorem c5_dot_truncates :
    ∀ a b : Vec, dot b a =
      ∑ k ∈ Finset.range (min a.length b.length), a.getD k 0 * b.getD k 0 :=
  dot_as_sum

-- -------------------------------------------------------------------------
-- Claim C6
-- -------------------------------------------------------------------------

/-- C6 counterexample: rotateZ at angle 0 (where the degree cosine is 1 and
the degree sine is 0) is not the identity matrix and not the standard
rotation matrix: the source zeroes the third row of the Z rotation. -/
theorem c6_counterexample :
    rotateZ (fun _ => 1) (fun _ => 0) 0 ≠ identity
    ∧ rotateZ (fun _ => 1) (fun _ => 0) 0 ≠ stdRotZ (fun _ => 1) (fun _ => 0) 0 := by
  norm_num [rotateZ, identity, stdRotZ]

/-- C6 amended: rotateX and rotateY build the standard homogeneous rotation
matrices (and equal the identity at angle 0), while rotateZ builds the
standard Z rotation with the depth row zeroed, that is, the standard matrix
multiplied by the projection VT; at angle 0 it differs from the identity
exactly in the (2,2) entry. -/
theorem c6_rotation_matrices (cosd sind : ℚ → ℚ) (a : ℚ) :
    rotateX cosd sind a = stdRotX cosd sind a
    ∧ rotateY cosd sind a = stdRotY cosd sind a
    ∧ rotateZ cosd sind a = concat (stdRotZ cosd sind a) VT
    ∧ (cosd 0 = 1 → sind 0 = 0 →
        rotateX cosd sind 0 = identity
        ∧ rotateY cosd sind 0 = identity
        ∧ rotateZ cosd sind 0 ≠ identity) := by
  refine ⟨rfl, rfl, ?_, ?_⟩
  · norm_num [rotateZ, stdRotZ, VT, concat, transpose, row, atIdx, dot,
      List.range_succ]
  · intro h1 h2
    refine ⟨?_, ?_, ?_⟩
    · simp [rotateX, identity, h1, h2]
    · simp [rotateY, identity, h1, h2]
    · intro h
      have h22 : entry (rotateZ cosd sind 0) 2 2 = entry identity 2 2 := by rw [h]
      have hz : entry (rotateZ cosd sind 0) 2 2 = 0 := rfl
      have hi : entry identity 2 2 = 1 := rfl
      rw [hz, hi] at h22
      exact absurd h22 (by norm_num)

/-- Witness for C6 with the degree-trig evaluators fixed so that the
cosine of 0 is 1 and the sine of 0 is 0. -/
theorem c6_witness :
    rotateX (fun _ => 1) (fun _ => 0) 0 = identity
    ∧ rotateY (fun _ => 1) (fun _ => 0) 0 = identity
    ∧ rotateZ (fun _ => 1) (fun _ => 0) 0 ≠ identity :=
  (c6_rotation_matrices (fun _ => 1) (fun _ => 0) 0).2.2.2 rfl rfl

-- -------------------------------------------------------------------------
-- Claim C7
-- -------------------------------------------------------------------------

/-- dToList views a Drawing as the children list it contributes when
concatenated: a Many contributes its children, anything else itself. -/
def dToList : Drawing → List Drawing
  | .many ds => ds
  | x => [x]

theorem drawingConcat_eq (x y : Drawing) :
    drawingConcat x y = .many (dToList x ++ dToList y) := by
  cases x <;> cases y <;> simp [drawingConcat, dToList]

theorem dToList_concat (x y : Drawing) :
    dToList (drawingConcat x y) = dToList x ++ dToList y := by
  rw [drawingConcat_eq]; rfl

/-- C7 counterexample: Many of no children is not a two-sided identity on
the whole Drawing type; concatenating it with a non-Many drawing wraps that
drawing in a Many instead of returning it. -/
theorem c7_counterexample :
    drawingConcat drawingEmpty (Drawing.fill (Shape.path false []) ⟨none⟩)
      ≠ Drawing.fill (Shape.path false []) ⟨none⟩ := by
  simp [drawingConcat, drawingEmpty]

/-- C7 amended: the merge rules are as stated (both Many merges children,
exactly one Many appends or prepends the other as a single element, neither
wraps both), and the combination is associative; Many of no children is an
identity only on Many drawings, while on a non-Many drawing x both
concat(Many [], x) and concat(x, Many []) return Many [x], not x. -/
theorem c7_monoidDrawing :
    (∀ xs ys, drawingConcat (.many xs) (.many ys) = .many (xs ++ ys))
    ∧ (∀ xs y, isMany y = false → drawingConcat (.many xs) y = .many (xs ++ [y]))
    ∧ (∀ x ys, isMany x = false → drawingConcat x (.many ys) = .many ([x] ++ ys))
    ∧ (∀ x y, isMany x = false → isMany y = false → drawingConcat x y = .many [x, y])
    ∧ (∀ x y z, drawingConcat (drawingConcat x y) z
        = drawingConcat x (drawingConcat y z))
    ∧ (∀ ds, drawingConcat drawingEmpty (.many ds) = .many ds
        ∧ drawingConcat (.many ds) drawingEmpty = .many ds)
    ∧ (∀ x, isMany x = false → drawingConcat drawingEmpty x = .many [x]
        ∧ drawingConcat x drawingEmpty = .many [x]) := by
  refine ⟨fun xs ys => rfl, ?_, ?_, ?_, ?_, ?_, ?_⟩
  · intro xs y hy
    cases y <;> simp_all [drawingConcat, isMany]
  · intro x ys hx
    cases x <;> simp_all [drawingConcat, isMany]
  · intro x y hx hy
    cases x <;> cases y <;> simp_all [drawingConcat, isMany]
  · intro x y z
    simp [drawingConcat_eq, dToList]
  · intro ds
    exact ⟨by simp [drawingConcat, drawingEmpty], by simp [drawingConcat, drawingEmpty]⟩
  · intro x hx
    cases x <;> simp_all [drawingConcat, drawingEmpty, isMany]

/-- Witness for C7 at a concrete non-Many drawing. -/
theorem c7_witness :
    drawingConcat drawingEmpty (Drawing.fill (Shape.path false []) ⟨none⟩)
      = Drawing.many [Drawing.fill (Shape.path false []) ⟨none⟩]
    ∧ drawingConcat (Drawing.fill (Shape.path false []) ⟨none⟩) drawingEmpty
      = Drawing.many [Drawing.fill (Shape.path false []) ⟨none⟩] :=
  c7_monoidDrawing.2.2.2.2.2.2 (Drawing.fill (Shape.path false []) ⟨none⟩) rfl

-- -------------------------------------------------------------------------
-- Claim C9
-- -------------------------------------------------------------------------

theorem closedF_fold (xs : List Vec) :
    ∀ pts : List Vec,
      xs.foldl (fun b a => PathV.mk true (b.points ++ [a])) ⟨true, pts⟩
        = ⟨true, pts ++ xs⟩ := by
  induction xs with
  | nil => intro pts; simp
  | cons x xs ih =>
    intro pts
    simpa using ih (pts ++ [x])

theorem pathF_fold (xs : List Vec) :
    ∀ pts : List Vec,
      xs.foldl (fun b a => PathV.mk false (b.points ++ [a])) ⟨false, pts⟩
        = ⟨false, pts ++ xs⟩ := by
  induction xs with
  | nil => intro pts; simp
  | cons x xs ih =>
    intro pts
    simpa using ih (pts ++ [x])

/-- C9 counterexample: the closed constructor of a Path does not always set
the closed flag; on the empty point sequence it returns the monoidPath
unit, whose closed field is false. -/
theorem c9_counterexample : ¬ (closedF []).closed = true := by
  decide

/-- C9 amended: path(F)(fa) returns a Path with closed false and points
exactly fa, for every fa; closed(F)(fa) returns a Path with closed true and
points exactly fa for every non-empty fa, but on the empty sequence both
constructors return the monoidPath unit, whose closed flag is false. -/
theorem c9_path_closed_folds :
    (∀ fa : List Vec, pathF fa = ⟨false, fa⟩)
    ∧ (∀ (x : Vec) (xs : List Vec), closedF (x :: xs) = ⟨true, x :: xs⟩)
    ∧ closedF [] = monoidPathEmpty ∧ (closedF []).closed = false := by
  refine ⟨?_, ?_, rfl, rfl⟩
  · intro fa
    cases fa with
    | nil => rfl
    | cons x xs =>
      show (x :: xs).foldl (fun b a => PathV.mk false (b.points ++ [a]))
        ⟨false, []⟩ = _
      rw [List.foldl_cons]
      simpa using pathF_fold xs [x]
  · intro x xs
    show (x :: xs).foldl (fun b a => PathV.mk true (b.points ++ [a]))
      ⟨false, []⟩ = _
    rw [List.foldl_cons]
    simpa using closedF_fold xs [x]

-- -------------------------------------------------------------------------
-- Claim C10
-- -------------------------------------------------------------------------

/-- inv is the implicit invariant: every subpath of the path holds at least
one point. -/
def inv (p : Path3D) : Prop := ∀ sp ∈ p, sp ≠ []

instance (p : Path3D) : Decidable (inv p) := by
  unfold inv; infer_instance

/-- POp is one Path3D builder operation. -/
inductive POp where
  | move (v : Vec) : POp
  | line (v : Vec) : POp
  | close : POp

/-- applyOp applies one builder operation. -/
def applyOp (p : Path3D) : POp → Path3D
  | .move v => moveTo v p
  | .line v => lineTo v p
  | .close => closePath p

/-- applyOps applies a finite operation sequence to the empty path. -/
def applyOps (ops : List POp) : Path3D := ops.foldl applyOp []

theorem inv_moveTo (v : Vec) (p : Path3D) (h : inv p) : inv (moveTo v p) := by
  unfold moveTo
  split
  · intro sp hsp
    rcases List.mem_append.mp hsp with hm | hm
    · exact h sp hm
    · rcases List.mem_singleton.mp hm with rfl
      simp
  · exact h

theorem inv_modifyLast (f : List Vec → List Vec) (hf : ∀ a, f a ≠ []) :
    ∀ p : Path3D, inv p → inv (modifyLast f p)
  | [], h => h
  | [a], _ => by
    intro sp hsp
    rcases List.mem_singleton.mp hsp with rfl
    exact hf a
  | a :: b :: t, h => by
    intro sp hsp
    rw [modifyLast] at hsp
    rcases List.mem_cons.mp hsp with rfl | hm
    · exact h sp (List.mem_cons_self _ _)
    · exact inv_modifyLast f hf (b :: t)
        (fun x hx => h x (List.mem_cons_of_mem _ hx)) sp hm

theorem inv_lineTo (v : Vec) (p : Path3D) (h : inv p) : inv (lineTo v p) := by
  unfold lineTo
  split
  · match p with
    | [] => exact inv_moveTo v [] h
    | a :: t =>
      exact inv_modifyLast _ (fun c => by simp) (a :: t) h
  · exact h

theorem inv_closePath (p : Path3D) (h : inv p) : inv (closePath p) := by
  unfold closePath
  split
  · exact h
  · split
    · exact h
    · split
      · exact h
      · intro sp hsp
        rcases List.mem_append.mp hsp with hm | hm
        · exact inv_modifyLast _ (fun c => by simp) p h sp hm
        · rcases List.mem_singleton.mp hm with rfl
          simp

theorem inv_foldl (ops : List POp) :
    ∀ p : Path3D, inv p → inv (ops.foldl applyOp p) := by
  induction ops with
  | nil => intro p h; exact h
  | cons op rest ih =>
    intro p h
    rw [List.foldl_cons]
    refine ih (applyOp p op) ?_
    cases op with
    | move v => exact inv_moveTo v p h
    | line v => exact inv_lineTo v p h
    | close => exact inv_closePath p h

/-- C10: every subpath of a Path3D built from the empty path by any finite
sequence of moveTo, lineTo and closePath operations is non-empty, and each
of the three operations preserves that invariant. -/
theorem c10_invariant :
    (∀ (v : Vec) (p : Path3D), inv p → inv (moveTo v p))
    ∧ (∀ (v : Vec) (p : Path3D), inv p → inv (lineTo v p))
    ∧ (∀ p : Path3D, inv p → inv (closePath p))
    ∧ (∀ ops : List POp, inv (applyOps ops)) :=
  ⟨inv_moveTo, inv_lineTo, inv_closePath,
   fun ops => inv_foldl ops [] (by intro sp hsp; cases hsp)⟩

/-- Witness for C10 at a concrete path and operation sequence. -/
theorem c10_witness :
    inv (moveTo [4, 5, 6] [[[1, 2, 3]]])
    ∧ inv (applyOps [POp.move [1, 2, 3], POp.line [4, 5, 6], POp.close]) :=
  ⟨c10_invariant.1 [4, 5, 6] [[[1, 2, 3]]] (by decide),
   c10_invariant.2.2.2 [POp.move [1, 2, 3], POp.line [4, 5, 6], POp.close]⟩

-- -------------------------------------------------------------------------
-- Claim C4
-- -------------------------------------------------------------------------

theorem mem_of_getLast? {α : Type} :
    ∀ {l : List α} {a : α}, l.getLast? = some a → a ∈ l
  | [a], _, h => by
    rw [List.getLast?_singleton] at h
    rcases Option.some_inj.mp h with rfl
    exact List.mem_singleton_self a
  | a :: b :: t, x, h => by
    rw [List.getLast?_cons_cons] at h
    exact List.mem_cons_of_mem a (mem_of_getLast? h)

theorem headD_mem {α : Type} (d : α) {l : List α} (h : l ≠ []) :
    l.headD d ∈ l := by
  cases l with
  | nil => exact absurd rfl h
  | cons a t => exact List.mem_cons_self a t

theorem getLastD_mem {α : Type} (d : α) :
    ∀ {l : List α}, l ≠ [] → l.getLastD d ∈ l
  | [a], _ => by simp
  | a :: b :: t, _ => by
    have hstep : (a :: b :: t).getLastD d = (b :: t).getLastD d := by
      simp [List.getLastD_eq_getLast?, List.getLast?_cons_cons]
    rw [hstep]
    exact List.mem_cons_of_mem a (getLastD_mem d (by simp))

theorem len3_cases : ∀ a : Vec, a.length = 3 → ∃ x y z : ℚ, a = [x, y, z]
  | [], h => by simp at h
  | [_], h => by simp at h
  | [_, _], h => by simp at h
  | [x, y, z], _ => ⟨x, y, z, rfl⟩
  | _ :: _ :: _ :: _ :: _, h => by simp at h

theorem sameFirst3_iff_eq {a b : Vec} (ha : a.length = 3) (hb : b.length = 3) :
    sameFirst3 a b ↔ a = b := by
  obtain ⟨x, y, z, rfl⟩ := len3_cases a ha
  obtain ⟨u, v, w, rfl⟩ := len3_cases b hb
  simp [sameFirst3]

/-- pts3 states that every point of every subpath is a 3-vector, as the
Path3D data model prescribes. -/
def pts3 (p : Path3D) : Prop := ∀ sp ∈ p, ∀ v ∈ sp, v.length = 3

instance (p : Path3D) : Decidable (pts3 p) := by
  unfold pts3; infer_instance

/-- C4: on every Path3D whose points are 3-vectors, closePath behaves
exactly as the claim describes it (unchanged on an empty path, on a last
subpath with at most one point, or when the last subpath closes on itself
component-wise; otherwise the last subpath is extended by a copy of its
first point and a new trailing subpath holds only that point); and the
concrete example of the claim evaluates as stated. -/
theorem c4_closePath_correct :
    (∀ p : Path3D, pts3 p → closePath p = closePathSpec p)
    ∧ closePath (lineTo [7, 8, 9] [[[1, 2, 3], [4, 5, 6]]])
        = [[[1, 2, 3], [4, 5, 6], [7, 8, 9], [1, 2, 3]], [[1, 2, 3]]] := by
  constructor
  · intro p hp
    cases hLast : p.getLast? with
    | none => simp [closePath, closePathSpec, hLast]
    | some cur =>
      have hcur : cur ∈ p := mem_of_getLast? hLast
      simp only [closePath, closePathSpec, hLast]
      by_cases hlen : cur.length ≤ 1
      · rw [if_pos hlen, if_pos hlen]
      · rw [if_neg hlen, if_neg hlen]
        have hne : cur ≠ [] := by
          intro e; rw [e] at hlen; simp at hlen
        have hstart : (cur.headD []).length = 3 :=
          hp cur hcur _ (headD_mem [] hne)
        have hend : (cur.getLastD []).length = 3 :=
          hp cur hcur _ (getLastD_mem [] hne)
        have hiff := sameFirst3_iff_eq hend hstart
        by_cases hsame : cur.getLastD [] = cur.headD []
        · rw [if_pos hsame, if_pos (hiff.mpr hsame)]
        · rw [if_neg hsame, if_neg (fun hs => hsame (hiff.mp hs))]
  · decide

/-- Witness for C4 at a concrete path of 3-vectors. -/
theorem c4_witness :
    closePath [[[1, 2, 3]]] = closePathSpec [[[1, 2, 3]]] :=
  c4_closePath_correct.1 [[[1, 2, 3]]] (by decide)

-- -------------------------------------------------------------------------
-- Claim C1
-- -------------------------------------------------------------------------

theorem foldl_lineTo_single :
    ∀ (tl : List Vec) (cur : List Vec), (∀ q ∈ tl, isPointFinite q = true) →
      tl.foldl (fun a pt => lineTo pt a) [cur] = [cur ++ tl]
  | [], cur, _ => by simp
  | pt :: rest, cur, h => by
    have hpt : isPointFinite pt = true := h pt (List.mem_cons_self _ _)
    have hstep : lineTo pt [cur] = [cur ++ [pt]] := by
      simp [lineTo, hpt, modifyLast]
    rw [List.foldl_cons, hstep,
      foldl_lineTo_single rest (cur ++ [pt])
        (fun q hq => h q (List.mem_cons_of_mem _ hq))]
    simp

/-- C1 counterexample: a closed Path shape with the non-empty point
sequence [[0,0,0]] renders to the empty path, not to exactly one subpath:
closePath is a no-op on a single-point subpath, and the subsequent drop of
the trailing subpath removes the only subpath there is. -/
theorem c1_counterexample :
    renderShape (Shape.path true [[0, 0, 0]]) = []
    ∧ ([[0, 0, 0]] : List Vec) ≠ [] := by
  constructor
  · show renderPath true [[0, 0, 0]] = []
    decide
  · decide

/-- C1 amended: for a closed Path shape whose points are finite, with at
least two points, and whose last point differs from its first on the first
three components, renderShape yields exactly one subpath: the point
sequence followed by a copy of its first point (moveTo, lineTo each
remaining point, closePath, then dropping the trailing phantom subpath);
in the degenerate cases (a single point, or a point sequence already closed
component-wise) the result is the empty path instead. -/
theorem c1_renderShape_closed (head : Vec) (tail : List Vec)
    (hfin : ∀ q ∈ head :: tail, isPointFinite q = true)
    (hne : tail ≠ [])
    (hdiff : ¬ sameFirst3 ((head :: tail).getLastD []) head) :
    renderShape (Shape.path true (head :: tail)) = [head :: (tail ++ [head])] := by
  have hh : isPointFinite head = true := hfin head (List.mem_cons_self _ _)
  have hmove : moveTo head [] = [[head]] := by simp [moveTo, hh]
  have hbuilt : tail.foldl (fun a pt => lineTo pt a) (moveTo head []) =
      [head :: tail] := by
    rw [hmove, foldl_lineTo_single tail [head]
      (fun q hq => hfin q (List.mem_cons_of_mem _ hq))]
    rfl
  show renderPath true (head :: tail) = _
  rw [renderPath]
  simp only [hbuilt]
  have hlen : ¬ (head :: tail).length ≤ 1 := by
    cases tail with
    | nil => exact absurd rfl hne
    | cons b t => simp
  have hclose : closePath [head :: tail]
      = [head :: (tail ++ [head]), [head]] := by
    have hLast : ([head :: tail] : Path3D).getLast? = some (head :: tail) := rfl
    simp only [closePath, hLast]
    rw [if_neg hlen]
    rw [if_neg (by simpa using hdiff)]
    rfl
  rw [if_pos trivial, hclose]
  rfl

/-- Witness for C1 at a concrete two-point closed path. -/
theorem c1_witness :
    renderShape (Shape.path true [[0, 0, 0], [1, 0, 0]])
      = [[[0, 0, 0], [1, 0, 0], [0, 0, 0]]] :=
  c1_renderShape_closed [0, 0, 0] [[1, 0, 0]] (by decide) (by decide) (by decide)

-- -------------------------------------------------------------------------
-- Claim C3
-- -------------------------------------------------------------------------

/-- C3: the interpreter recurses into the child of a Rotate node with the
transform concat(concat(rotateY ay, rotateX ax), concat(t, rotateZ az)),
that is, (RotateY ay times RotateX ax) times (T times RotateZ az) under the
product concat(X, Y) = X times Y; and mul(B)(A) = concat(A, B), so the
argument passed second to mul is the left operand of the product. -/
theorem c3_rotate_transform (cosd sind : ℚ → ℚ) (ax ay az : ℚ)
    (child : Drawing) (t : Mat) :
    go cosd sind t (Drawing.rotate ax ay az child)
      = go cosd sind
          (concat (concat (rotateY cosd sind ay) (rotateX cosd sind ax))
                  (concat t (rotateZ cosd sind az))) child
    ∧ (∀ fb fa : Mat, mul fb fa = concat fa fb) :=
  ⟨rfl, fun _ _ => rfl⟩

-- -------------------------------------------------------------------------
-- Claim C2
-- -------------------------------------------------------------------------

/-- C2: rendering Fill of the closed unit-square Path under the initial
identity transform emits exactly save, setFillStyle of the css of the fill
color, beginPath, moveTo (0,0), lineTo (1,0), lineTo (1,1), lineTo (0,1),
lineTo (0,0), fill, restore, in that order. -/
theorem c2_render_fill_trace (cosd sind : ℚ → ℚ) (RED : Color) :
    render cosd sind
      (Drawing.fill (Shape.path true [[0,0,0],[1,0,0],[1,1,0],[0,1,0]])
        ⟨some RED⟩)
      = [Cmd.save, Cmd.setFillStyle (toCss RED), Cmd.beginPath,
         Cmd.moveTo 0 0, Cmd.lineTo 1 0, Cmd.lineTo 1 1, Cmd.lineTo 0 1,
         Cmd.lineTo 0 0, Cmd.fill, Cmd.restore] := by
  have hco : toCoords (Shape.path true [[0,0,0],[1,0,0],[1,1,0],[0,1,0]])
      identity
      = [[[0,0,0,1],[1,0,0,1],[1,1,0,1],[0,1,0,1],[0,0,0,1]]] := by
    norm_num [toCoords, renderShape, renderPath, moveTo, lineTo, closePath,
      modifyLast, updateLast, sameFirst3, isPointFinite, mul, concat,
      transpose, row, atIdx, dot, identity, VT, List.range_succ,
      List.filterMap_cons, Function.comp]
  show go cosd sind identity _ = _
  rw [show go cosd sind identity
      (Drawing.fill (Shape.path true [[0,0,0],[1,0,0],[1,1,0],[0,1,0]])
        ⟨some RED⟩)
    = [Cmd.save]
      ++ styleCmds (some RED) (fun c => [Cmd.setFillStyle (toCss c)])
      ++ [Cmd.beginPath]
      ++ ((toCoords (Shape.path true [[0,0,0],[1,0,0],[1,1,0],[0,1,0]])
            identity).map renderSubPath).flatten
      ++ [Cmd.fill]
      ++ [Cmd.restore] from rfl]
  rw [hco]
  norm_num [styleCmds, renderSubPath, atIdx]

end C3D
